import Mathlib

/-!
# Verification of the bidirectional data-shape engine

The repository documents a bidirectional data-shape engine (immutable schema
nodes; decode / encode / validate interpreters; an issue/error model with
`first` / `all` accumulation and an excess-property policy).  The repository
itself ships only the documentation: the engine's executable source is not
part of it.  Following the specification (sections 3, 4, 7 and 8) and the
behaviour documented with concrete inputs/outputs in the pages, this file
models the engine as a shallow embedding and proves the stated properties.

Modelled fragment (from the spec's data model): primitive, literal, struct
(required property signatures), union (ordered members, in-order trial),
refinement (with a first-order predicate language covering the documented
filters), transform (fallible decode/encode functions), and brand.  Record,
tuple/array, suspend, optional property signatures and the
`preserveKeyOrder` option are outside the fragment; no claim below needs
them.  The discriminated-union fast path agrees with in-order trial on every
successful decode (earlier members carry a different literal at the
discriminant and thus fail), so unions are interpreted by in-order trial;
the `discriminated` predicate below captures the spec's side condition.
-/

/-- Modelled from the spec: JavaScript-style numbers as used by the engine's
`number` primitive — NaN, the two infinities, or a finite rational. -/
inductive JsNum where
  | nan
  | inf
  | ninf
  | fin (q : Rat)
deriving DecidableEq, Repr

mutual
/-- Modelled from the spec: the untyped runtime values the engine consumes
and produces (both the Encoded and the Type side live here). -/
inductive Value where
  | null
  | undef
  | bool (b : Bool)
  | num (n : JsNum)
  | str (s : String)
  | obj (fs : ObjFields)
deriving DecidableEq
/-- The ordered key/value entries of an object value. -/
inductive ObjFields where
  | nil
  | cons (k : String) (v : Value) (rest : ObjFields)
deriving DecidableEq
end

/-- One segment of an issue path: an object key or an array index. -/
inductive PathSeg where
  | key (k : String)
  | idx (i : Nat)
deriving DecidableEq, Repr

mutual
/-- Modelled from the spec: a Parse Issue — path from the root, kind,
offending value where the spec records one, optional custom message, and
(for Composite) the ordered child issues. -/
inductive Issue where
  | typeMismatch (path : List PathSeg) (expected : String) (actual : Value)
  | missingKey (path : List PathSeg)
  | unexpectedKey (path : List PathSeg)
  | forbidden (path : List PathSeg) (actual : Value) (msg : Option String)
  | transformFailed (path : List PathSeg) (msg : String)
  | composite (path : List PathSeg) (children : Issues)
deriving DecidableEq
/-- An ordered list of issues (children of a Composite). -/
inductive Issues where
  | nil
  | cons (i : Issue) (rest : Issues)
deriving DecidableEq
end

/-- Error-accumulation policy: stop at the first issue or collect all. -/
inductive ErrorsMode where
  | first
  | all
deriving DecidableEq

/-- Excess-property policy for struct decoding. -/
inductive ExcessMode where
  | ignore
  | error
  | preserve
deriving DecidableEq

/-- Modelled from the spec: the recognized parse options (the
`preserveKeyOrder` flag is outside the modelled fragment). -/
structure ParseOptions where
  errors : ErrorsMode
  onExcessProperty : ExcessMode
deriving DecidableEq

/-- The engine's default options. -/
def defaultOptions : ParseOptions := ⟨.first, .ignore⟩

/-- Modelled from the spec: the documented refinement (filter) predicates —
pure predicates over the Type value that never change the carrier type. -/
inductive FilterPred where
  | minLen (n : Nat)
  | maxLen (n : Nat)
  | positive
  | isInt
  | between (lo hi : Rat)
deriving DecidableEq

/-- Evaluate a refinement predicate on a value.  Each documented filter
constrains a scalar carrier (string length or number range); on any other
carrier the predicate does not hold. -/
def evalPred : FilterPred → Value → Bool
  | .minLen n, .str s => decide (n ≤ s.length)
  | .maxLen n, .str s => decide (s.length ≤ n)
  | .positive, .num (.fin q) => decide (0 < q)
  | .isInt, .num (.fin q) => decide (q.den = 1)
  | .between lo hi, .num (.fin q) => decide (lo ≤ q) && decide (q ≤ hi)
  | _, _ => false

/-- Base-type tags of the primitive schema variant. -/
inductive PrimTag where
  | str
  | num
  | bool
  | null
  | undef
  | unknown
  | never
deriving DecidableEq

/-- The structural check a primitive node performs. -/
def primCheck : PrimTag → Value → Bool
  | .str, .str _ => true
  | .num, .num _ => true
  | .bool, .bool _ => true
  | .null, .null => true
  | .undef, .undef => true
  | .unknown, _ => true
  | _, _ => false

/-- Human-readable name of a primitive tag, used in issues. -/
def primName : PrimTag → String
  | .str => "string"
  | .num => "number"
  | .bool => "boolean"
  | .null => "null"
  | .undef => "undefined"
  | .unknown => "unknown"
  | .never => "never"

mutual
/-- Modelled from the spec: the closed set of schema node variants in the
fragment.  A transform carries its from ("Encoded") and to ("Type") sides
and a fallible decode and encode function; a refinement carries a predicate
and an optional custom message; a brand is a transparent marker. -/
inductive Schema where
  | prim (t : PrimTag)
  | lit (v : Value)
  | struct (fields : Fields)
  | union (members : Members)
  | refine (inner : Schema) (p : FilterPred) (msg : Option String)
  | transform (src : Schema) (dst : Schema)
      (dec : Value → Except String Value) (enc : Value → Except String Value)
  | brand (inner : Schema) (tag : String)
/-- The ordered property signatures of a struct (required keys in the
modelled fragment). -/
inductive Fields where
  | nil
  | cons (k : String) (s : Schema) (rest : Fields)
/-- The ordered members of a union. -/
inductive Members where
  | nil
  | cons (s : Schema) (rest : Members)
end

def ObjFields.lookup : ObjFields → String → Option Value
  | .nil, _ => none
  | .cons k v rest, key => if k = key then some v else rest.lookup key

def ObjFields.append : ObjFields → ObjFields → ObjFields
  | .nil, gs => gs
  | .cons k v rest, gs => .cons k v (rest.append gs)

def ObjFields.keys : ObjFields → List String
  | .nil => []
  | .cons k _ rest => k :: rest.keys

def ObjFields.isEmpty : ObjFields → Bool
  | .nil => true
  | .cons _ _ _ => false

def Fields.hasKey : Fields → String → Bool
  | .nil, _ => false
  | .cons k _ rest, key => k = key || rest.hasKey key

def Fields.keys : Fields → List String
  | .nil => []
  | .cons k _ rest => k :: rest.keys

/-- The input entries whose key is not declared by the struct, in input
order (spec: excess keys are detected after the declared keys resolve). -/
def excessOf (fl : Fields) : ObjFields → ObjFields
  | .nil => .nil
  | .cons k v rest => if fl.hasKey k then excessOf fl rest else .cons k v (excessOf fl rest)

def Issues.append : Issues → Issues → Issues
  | .nil, js => js
  | .cons i rest, js => .cons i (rest.append js)

def Issues.ofList : List Issue → Issues
  | [] => .nil
  | i :: rest => .cons i (Issues.ofList rest)

def Issues.toList : Issues → List Issue
  | .nil => []
  | .cons i rest => i :: rest.toList

/-- One Unexpected-Key issue per excess entry, in input order. -/
def unexpectedIssues : ObjFields → Issues
  | .nil => .nil
  | .cons k _ rest => .cons (.unexpectedKey [.key k]) (unexpectedIssues rest)

mutual
/-- Prepend a path segment to every path inside an issue (paths are stored
absolute, so descending into a key re-roots the subtree's issues). -/
def Issue.prependSeg (seg : PathSeg) : Issue → Issue
  | .typeMismatch p e a => .typeMismatch (seg :: p) e a
  | .missingKey p => .missingKey (seg :: p)
  | .unexpectedKey p => .unexpectedKey (seg :: p)
  | .forbidden p a m => .forbidden (seg :: p) a m
  | .transformFailed p m => .transformFailed (seg :: p) m
  | .composite p cs => .composite (seg :: p) (Issues.prependSeg seg cs)
def Issues.prependSeg (seg : PathSeg) : Issues → Issues
  | .nil => .nil
  | .cons i rest => .cons (i.prependSeg seg) (Issues.prependSeg seg rest)
end

/-- The path recorded at the root of an issue. -/
def topPath : Issue → List PathSeg
  | .typeMismatch p _ _ => p
  | .missingKey p => p
  | .unexpectedKey p => p
  | .forbidden p _ _ => p
  | .transformFailed p _ => p
  | .composite p _ => p

/-- The paths a decode result surfaces: the children's root paths of a
Composite, or the single issue's own path. -/
def issuePathsOf : Except Issue Value → List (List PathSeg)
  | .ok _ => []
  | .error (.composite _ cs) => (cs.toList).map topPath
  | .error i => [topPath i]

mutual
/-- Modelled from the spec (4.2): the Decode Engine.  Interprets a node
against an untrusted input, producing the Type value or an issue.  Structs
iterate the declared signatures in order; under `first` the first failing
field stops the walk, under `all` field issues accumulate as siblings of a
Composite; excess keys are detected afterwards and handled per the
excess-key mode.  Unions try members in declaration order and return the
first success, else a Composite with one child per member.  Refinements
check their predicate on the decoded inner value; transforms decode the
from-side then apply the transform's decode function; brands pass through. -/
def decode (o : ParseOptions) : Schema → Value → Except Issue Value
  | .prim t, v => if primCheck t v then .ok v else .error (.typeMismatch [] (primName t) v)
  | .lit l, v => if v = l then .ok v else .error (.typeMismatch [] "literal" v)
  | .struct fl, v =>
    match v with
    | .obj fs =>
      match o.errors with
      | .first =>
        match decodeFieldsFirst o fl fs with
        | .error i => .error i
        | .ok oks =>
          match o.onExcessProperty with
          | .ignore => .ok (.obj oks)
          | .preserve => .ok (.obj (oks.append (excessOf fl fs)))
          | .error =>
            match excessOf fl fs with
            | .nil => .ok (.obj oks)
            | .cons k _ _ => .error (.unexpectedKey [.key k])
      | .all =>
        let step := decodeFieldsAll o fl fs
        let errs : Issues := step.2.append
          (match o.onExcessProperty with
            | .error => unexpectedIssues (excessOf fl fs)
            | _ => .nil)
        match errs with
        | .nil =>
          match o.onExcessProperty with
          | .preserve => .ok (.obj (step.1.append (excessOf fl fs)))
          | _ => .ok (.obj step.1)
        | .cons i rest => .error (.composite [] (.cons i rest))
    | _ => .error (.typeMismatch [] "object" v)
  | .union ms, v =>
    match decodeMembers o ms v with
    | .ok r => .ok r
    | .error is => .error (.composite [] is)
  | .refine s p m, v =>
    match decode o s v with
    | .error i => .error i
    | .ok r => if evalPred p r then .ok r else .error (.forbidden [] r m)
  | .transform f _ d _, v =>
    match decode o f v with
    | .error i => .error i
    | .ok r =>
      match d r with
      | .ok w => .ok w
      | .error m => .error (.transformFailed [] m)
  | .brand s _, v => decode o s v
  termination_by structural s _ => s
/-- Struct field walk under `errors: "first"`: stop at the first failing
field (a missing required key or a failing value), path-prefixing the
issue with the field key. -/
def decodeFieldsFirst (o : ParseOptions) : Fields → ObjFields → Except Issue ObjFields
  | .nil, _ => .ok .nil
  | .cons k s rest, fs =>
    match fs.lookup k with
    | none => .error (.missingKey [.key k])
    | some v =>
      match decode o s v with
      | .error i => .error (i.prependSeg (.key k))
      | .ok r =>
        match decodeFieldsFirst o rest fs with
        | .error i => .error i
        | .ok oks => .ok (.cons k r oks)
  termination_by structural fl _ => fl
/-- Struct field walk under `errors: "all"`: continue past failing fields,
accumulating the decoded entries and the field issues in declared order. -/
def decodeFieldsAll (o : ParseOptions) : Fields → ObjFields → ObjFields × Issues
  | .nil, _ => (.nil, .nil)
  | .cons k s rest, fs =>
    let step := decodeFieldsAll o rest fs
    match fs.lookup k with
    | none => (step.1, .cons (.missingKey [.key k]) step.2)
    | some v =>
      match decode o s v with
      | .error i => (step.1, .cons (i.prependSeg (.key k)) step.2)
      | .ok r => (.cons k r step.1, step.2)
  termination_by structural fl _ => fl
/-- Union member trial in declaration order: the first success
short-circuits; otherwise every member's issue is collected in order. -/
def decodeMembers (o : ParseOptions) : Members → Value → Except Issues Value
  | .nil, _ => .error .nil
  | .cons m rest, v =>
    match decode o m v with
    | .ok r => .ok r
    | .error i =>
      match decodeMembers o rest v with
      | .ok r => .ok r
      | .error is => .error (.cons i is)
  termination_by structural ms _ => ms
end

mutual
/-- Modelled from the spec (4.3): the Encode Engine, structurally mirroring
decode but walking Type to Encoded.  A transform applies its encode
function to the Type value first and then encodes the result against the
from-side; refinements re-check their predicate on the input before
encoding; struct excess-key handling does not apply on the way out. -/
def encode (o : ParseOptions) : Schema → Value → Except Issue Value
  | .prim t, v => if primCheck t v then .ok v else .error (.typeMismatch [] (primName t) v)
  | .lit l, v => if v = l then .ok v else .error (.typeMismatch [] "literal" v)
  | .struct fl, v =>
    match v with
    | .obj fs =>
      match o.errors with
      | .first =>
        match encodeFieldsFirst o fl fs with
        | .error i => .error i
        | .ok oks => .ok (.obj oks)
      | .all =>
        let step := encodeFieldsAll o fl fs
        match step.2 with
        | .nil => .ok (.obj step.1)
        | .cons i rest => .error (.composite [] (.cons i rest))
    | _ => .error (.typeMismatch [] "object" v)
  | .union ms, v =>
    match encodeMembers o ms v with
    | .ok r => .ok r
    | .error is => .error (.composite [] is)
  | .refine s p m, v =>
    if evalPred p v then encode o s v else .error (.forbidden [] v m)
  | .transform f _ _ e, v =>
    match e v with
    | .error m => .error (.transformFailed [] m)
    | .ok w => encode o f w
  | .brand s _, v => encode o s v
  termination_by structural s _ => s
def encodeFieldsFirst (o : ParseOptions) : Fields → ObjFields → Except Issue ObjFields
  | .nil, _ => .ok .nil
  | .cons k s rest, fs =>
    match fs.lookup k with
    | none => .error (.missingKey [.key k])
    | some v =>
      match encode o s v with
      | .error i => .error (i.prependSeg (.key k))
      | .ok r =>
        match encodeFieldsFirst o rest fs with
        | .error i => .error i
        | .ok oks => .ok (.cons k r oks)
  termination_by structural fl _ => fl
def encodeFieldsAll (o : ParseOptions) : Fields → ObjFields → ObjFields × Issues
  | .nil, _ => (.nil, .nil)
  | .cons k s rest, fs =>
    let step := encodeFieldsAll o rest fs
    match fs.lookup k with
    | none => (step.1, .cons (.missingKey [.key k]) step.2)
    | some v =>
      match encode o s v with
      | .error i => (step.1, .cons (i.prependSeg (.key k)) step.2)
      | .ok r => (.cons k r step.1, step.2)
  termination_by structural fl _ => fl
def encodeMembers (o : ParseOptions) : Members → Value → Except Issues Value
  | .nil, _ => .error .nil
  | .cons m rest, v =>
    match encode o m v with
    | .ok r => .ok r
    | .error i =>
      match encodeMembers o rest v with
      | .ok r => .ok r
      | .error is => .error (.cons i is)
  termination_by structural ms _ => ms
end

mutual
/-- Modelled from the spec (4.4): the Validator's traversal.  It reuses the
decode traversal restricted to the Type-only view of each node: at a
transform it walks the "to" side and never applies a transform function;
everything else mirrors decode. -/
def validate (o : ParseOptions) : Schema → Value → Except Issue Value
  | .prim t, v => if primCheck t v then .ok v else .error (.typeMismatch [] (primName t) v)
  | .lit l, v => if v = l then .ok v else .error (.typeMismatch [] "literal" v)
  | .struct fl, v =>
    match v with
    | .obj fs =>
      match o.errors with
      | .first =>
        match validateFieldsFirst o fl fs with
        | .error i => .error i
        | .ok oks =>
          match o.onExcessProperty with
          | .ignore => .ok (.obj oks)
          | .preserve => .ok (.obj (oks.append (excessOf fl fs)))
          | .error =>
            match excessOf fl fs with
            | .nil => .ok (.obj oks)
            | .cons k _ _ => .error (.unexpectedKey [.key k])
      | .all =>
        let step := validateFieldsAll o fl fs
        let errs : Issues := step.2.append
          (match o.onExcessProperty with
            | .error => unexpectedIssues (excessOf fl fs)
            | _ => .nil)
        match errs with
        | .nil =>
          match o.onExcessProperty with
          | .preserve => .ok (.obj (step.1.append (excessOf fl fs)))
          | _ => .ok (.obj step.1)
        | .cons i rest => .error (.composite [] (.cons i rest))
    | _ => .error (.typeMismatch [] "object" v)
  | .union ms, v =>
    match validateMembers o ms v with
    | .ok r => .ok r
    | .error is => .error (.composite [] is)
  | .refine s p m, v =>
    match validate o s v with
    | .error i => .error i
    | .ok r => if evalPred p r then .ok r else .error (.forbidden [] r m)
  | .transform _ t _ _, v => validate o t v
  | .brand s _, v => validate o s v
  termination_by structural s _ => s
def validateFieldsFirst (o : ParseOptions) : Fields → ObjFields → Except Issue ObjFields
  | .nil, _ => .ok .nil
  | .cons k s rest, fs =>
    match fs.lookup k with
    | none => .error (.missingKey [.key k])
    | some v =>
      match validate o s v with
      | .error i => .error (i.prependSeg (.key k))
      | .ok r =>
        match validateFieldsFirst o rest fs with
        | .error i => .error i
        | .ok oks => .ok (.cons k r oks)
  termination_by structural fl _ => fl
def validateFieldsAll (o : ParseOptions) : Fields → ObjFields → ObjFields × Issues
  | .nil, _ => (.nil, .nil)
  | .cons k s rest, fs =>
    let step := validateFieldsAll o rest fs
    match fs.lookup k with
    | none => (step.1, .cons (.missingKey [.key k]) step.2)
    | some v =>
      match validate o s v with
      | .error i => (step.1, .cons (i.prependSeg (.key k)) step.2)
      | .ok r => (.cons k r step.1, step.2)
  termination_by structural fl _ => fl
def validateMembers (o : ParseOptions) : Members → Value → Except Issues Value
  | .nil, _ => .error .nil
  | .cons m rest, v =>
    match validate o m v with
    | .ok r => .ok r
    | .error i =>
      match validateMembers o rest v with
      | .ok r => .ok r
      | .error is => .error (.cons i is)
  termination_by structural ms _ => ms
end

mutual
/-- The Type-only view of a node: a transform is replaced by the view of its
"to" side, a refinement keeps its predicate over the view of its wrapped
node, and structure is preserved elsewhere. -/
def typeView : Schema → Schema
  | .prim t => .prim t
  | .lit v => .lit v
  | .struct fl => .struct (typeViewFields fl)
  | .union ms => .union (typeViewMembers ms)
  | .refine s p m => .refine (typeView s) p m
  | .transform _ t _ _ => typeView t
  | .brand s tag => .brand (typeView s) tag
  termination_by structural s => s
def typeViewFields : Fields → Fields
  | .nil => .nil
  | .cons k s rest => .cons k (typeView s) (typeViewFields rest)
  termination_by structural fl => fl
def typeViewMembers : Members → Members
  | .nil => .nil
  | .cons m rest => .cons (typeView m) (typeViewMembers rest)
  termination_by structural ms => ms
end

mutual
/-- A node whose Type and Encoded representations coincide: no transform
occurs anywhere in it (refinements and brands never change the carrier). -/
def selfEncoded : Schema → Bool
  | .prim _ => true
  | .lit _ => true
  | .struct fl => selfEncodedFields fl
  | .union ms => selfEncodedMembers ms
  | .refine s _ _ => selfEncoded s
  | .transform _ _ _ _ => false
  | .brand s _ => selfEncoded s
  termination_by structural s => s
def selfEncodedFields : Fields → Bool
  | .nil => true
  | .cons _ s rest => selfEncoded s && selfEncodedFields rest
  termination_by structural fl => fl
def selfEncodedMembers : Members → Bool
  | .nil => true
  | .cons m rest => selfEncoded m && selfEncodedMembers rest
  termination_by structural ms => ms
end

def Members.append : Members → Members → Members
  | .nil, rest => rest
  | .cons m ms, rest => .cons m (ms.append rest)

/-- Every member of the list fails to decode the given input. -/
def Members.allFailOn (o : ParseOptions) (v : Value) : Members → Bool
  | .nil => true
  | .cons m rest => !(decode o m v).isOk && rest.allFailOn o v

def Fields.litKeys : Fields → List String
  | .nil => []
  | .cons k s rest =>
    match s with
    | .lit _ => k :: rest.litKeys
    | _ => rest.litKeys

def Schema.structHasLitKey (key : String) : Schema → Bool
  | .struct fl => fl.litKeys.contains key
  | _ => false

def Members.allHaveLitKey (key : String) : Members → Bool
  | .nil => true
  | .cons m rest => m.structHasLitKey key && rest.allHaveLitKey key

/-- Modelled from the spec: a union is discriminated when all members are
structs sharing one literal-valued key. -/
def discriminated : Members → Bool
  | .nil => false
  | .cons m rest =>
    match m with
    | .struct fl => fl.litKeys.any (fun k => Members.allHaveLitKey k (.cons m rest))
    | _ => false

/-- Equality of explicit results is decidable, so concrete engine runs can
be checked by evaluation. -/
instance {e a : Type} [DecidableEq e] [DecidableEq a] : DecidableEq (Except e a)
  | .error x, .error y =>
    if h : x = y then .isTrue (by rw [h]) else .isFalse (by intro c; injection c; contradiction)
  | .error _, .ok _ => .isFalse (by intro c; cases c)
  | .ok _, .error _ => .isFalse (by intro c; cases c)
  | .ok x, .ok y =>
    if h : x = y then .isTrue (by rw [h]) else .isFalse (by intro c; injection c; contradiction)

/-- The `string` primitive schema (the docs' `Schema.String`). -/
def Schema.String : Schema := .prim .str

/-- The `number` primitive schema (the docs' `Schema.Number`). -/
def Schema.Number : Schema := .prim .num

/-- The `null` literal schema (the docs' `Schema.Null`). -/
def Schema.Null : Schema := .lit .null

/-- The `minLength(n)` filter: wraps a schema in a refinement that requires
string length at least `n`. -/
def Schema.minLength (n : Nat) (s : Schema) : Schema := .refine s (.minLen n) none

/-- The `positive()` filter. -/
def Schema.positive (s : Schema) : Schema := .refine s .positive none

/-- The `int()` filter. -/
def Schema.int (s : Schema) : Schema := .refine s .isInt none

/-- The `between(lo, hi)` filter. -/
def Schema.between (lo hi : Rat) (s : Schema) : Schema := .refine s (.between lo hi) none

/-- Digits to a natural number, most significant first. -/
def digitsToNat (cs : List Char) : Nat := cs.foldl (fun a c => a * 10 + (c.toNat - 48)) 0

/-- Parse an unsigned decimal literal (digits with an optional fractional
part) into a rational. -/
def parseDecimal (cs : List Char) : Option Rat :=
  let ip := cs.takeWhile (·.isDigit)
  let rest := cs.dropWhile (·.isDigit)
  match rest with
  | [] => if ip.isEmpty then none else some (mkRat (digitsToNat ip) 1)
  | '.' :: fp =>
    if fp.all (·.isDigit) && !(ip.isEmpty && fp.isEmpty) then
      some (mkRat (digitsToNat ip * 10 ^ fp.length + digitsToNat fp) (10 ^ fp.length))
    else none
  | _ => none

/-- Modelled from the spec and the documented examples: the string-to-number
conversion behind `NumberFromString`.  `"NaN"`, `"Infinity"` and
`"-Infinity"` parse to the corresponding non-finite numbers; signed decimal
literals parse to finite numbers; anything else (such as letters) fails. -/
def parseJsNumber (s : String) : Option JsNum :=
  if s = "NaN" then some .nan
  else if s = "Infinity" then some .inf
  else if s = "-Infinity" then some .ninf
  else
    match s.data with
    | '-' :: cs => (parseDecimal cs).map (fun q => .fin (-q))
    | '+' :: cs => (parseDecimal cs).map .fin
    | cs => (parseDecimal cs).map .fin

/-- Render a number back to its string form (the encode direction of
`NumberFromString`; the documented examples exercise the integer case). -/
def renderJsNum : JsNum → String
  | .nan => "NaN"
  | .inf => "Infinity"
  | .ninf => "-Infinity"
  | .fin q => if q.den = 1 then toString q.num else toString q

/-- The docs' `Schema.NumberFromString`: a transform from the string
primitive to the number primitive. -/
def Schema.NumberFromString : Schema :=
  .transform (.prim .str) (.prim .num)
    (fun v =>
      match v with
      | .str s =>
        match parseJsNumber s with
        | some n => .ok (.num n)
        | none => .error "cannot convert to a number"
      | _ => .error "expected a string")
    (fun v =>
      match v with
      | .num n => .ok (.str (renderJsNum n))
      | _ => .error "expected a number")

/-- The docs' `Schema.NullOr`: a union of the wrapped schema and null, in
that declaration order. -/
def Schema.NullOr (s : Schema) : Schema := .union (.cons s (.cons (.lit .null) .nil))

/-- The Type-side representation of the absent Option state. -/
def noneValue : Value := .obj (.cons "_tag" (.str "None") .nil)

/-- The Type-side representation of the present Option state. -/
def someValue (v : Value) : Value :=
  .obj (.cons "_tag" (.str "Some") (.cons "value" v .nil))

/-- The docs' `Schema.OptionFromNullOr`: decodes `NullOr(S)` and maps a null
result to the absent container state and anything else to the present state
wrapping it. -/
def Schema.OptionFromNullOr (s : Schema) : Schema :=
  .transform (Schema.NullOr s)
    (.union (.cons (.struct (.cons "_tag" (.lit (.str "None")) .nil))
      (.cons (.struct (.cons "_tag" (.lit (.str "Some")) (.cons "value" (typeView s) .nil)))
        .nil)))
    (fun r => if r = .null then .ok noneValue else .ok (someValue r))
    (fun ov =>
      match ov with
      | .obj (.cons "_tag" (.str "None") .nil) => .ok .null
      | .obj (.cons "_tag" (.str "Some") (.cons "value" v .nil)) => .ok v
      | _ => .error "expected an Option value")

/-- The never-raising decode entry point: the result is an explicit
two-branch value (`Either`-style). -/
def decodeUnknownEither (s : Schema) (o : ParseOptions) (v : Value) : Except Issue Value :=
  decode o s v

/-- The optional-returning decode entry point. -/
def decodeUnknownOption (s : Schema) (o : ParseOptions) (v : Value) : Option Value :=
  (decodeUnknownEither s o v).toOption

/-- The "-or-raise" decode entry point: `none` models the raised ParseError
that this outermost wrapper produces from a failure result. -/
def decodeUnknownSync (s : Schema) (o : ParseOptions) (v : Value) : Option Value :=
  (decodeUnknownEither s o v).toOption

/-- The docs' `Schema.is` / `validateSync` success test: the validator's
yes/no answer under the default options. -/
def isValid (s : Schema) (v : Value) : Bool :=
  (validate defaultOptions s v).isOk

/-- The issue one struct field contributes: a Missing-Key issue when the
(required) key is absent, the field's decode issue re-rooted under the key
when its value fails, nothing when it succeeds. -/
def fieldIssueOf (o : ParseOptions) (fs : ObjFields) (k : String) (s : Schema) : Option Issue :=
  match fs.lookup k with
  | none => some (.missingKey [.key k])
  | some v =>
    match decode o s v with
    | .error i => some (i.prependSeg (.key k))
    | .ok _ => none

/-- The field issues of a struct decode, one per failing field, in declared
field order. -/
def fieldIssuesL (o : ParseOptions) : Fields → ObjFields → List Issue
  | .nil, _ => []
  | .cons k s rest, fs =>
    match fieldIssueOf o fs k s with
    | some i => i :: fieldIssuesL o rest fs
    | none => fieldIssuesL o rest fs

/-- The declared keys whose field fails, in declared field order. -/
def failKeys (o : ParseOptions) : Fields → ObjFields → List String
  | .nil, _ => []
  | .cons k s rest, fs =>
    if (fieldIssueOf o fs k s).isSome then k :: failKeys o rest fs else failKeys o rest fs

/-- The successfully decoded fields, in declared field order. -/
def fieldOks (o : ParseOptions) : Fields → ObjFields → ObjFields
  | .nil, _ => .nil
  | .cons k s rest, fs =>
    match fs.lookup k with
    | none => fieldOks o rest fs
    | some v =>
      match decode o s v with
      | .ok r => .cons k r (fieldOks o rest fs)
      | .error _ => fieldOks o rest fs

/-- Whether a value is an object. -/
def Value.isObj : Value → Bool
  | .obj _ => true
  | _ => false

theorem topPath_prependSeg (seg : PathSeg) (i : Issue) :
    topPath (i.prependSeg seg) = seg :: topPath i := by
  cases i <;> rfl

theorem evalPred_objFalse (p : FilterPred) (fs : ObjFields) : evalPred p (.obj fs) = false := by
  cases p <;> rfl

theorem isObj_true_iff (v : Value) : v.isObj = true ↔ ∃ fs, v = .obj fs := by
  cases v <;> simp [Value.isObj]

/-- The documented filter predicates are insensitive to the parts of an
object a struct walk may drop: they depend only on the scalar shape, which
transform-free decoding preserves. -/
theorem evalPred_congr (p : FilterPred) (v r : Value)
    (h1 : r.isObj = v.isObj) (h2 : v.isObj = false → r = v) :
    evalPred p r = evalPred p v := by
  cases hv : v.isObj with
  | false => rw [h2 hv]
  | true =>
    obtain ⟨fs, rfl⟩ := (isObj_true_iff v).mp hv
    obtain ⟨gs, rfl⟩ := (isObj_true_iff r).mp (h1.trans hv)
    simp [evalPred_objFalse]

theorem Issues.append_nil : (js : Issues) → js.append .nil = js
  | .nil => rfl
  | .cons i rest => by simp [Issues.append, Issues.append_nil rest]

/-- In-order member trial: if every earlier member fails on the input and a
member succeeds, the union's decode returns that member's result. -/
theorem decodeMembers_first_success (o : ParseOptions) (v : Value) :
    (pre : Members) → ∀ (m : Schema) (post : Members) (r : Value),
    pre.allFailOn o v = true → decode o m v = .ok r →
    decodeMembers o (pre.append (.cons m post)) v = .ok r
  | .nil, m, post, r, _, hm => by simp [Members.append, decodeMembers, hm]
  | .cons p rest, m, post, r, hpre, hm => by
    simp only [Members.allFailOn, Bool.and_eq_true] at hpre
    simp only [Members.append, decodeMembers]
    cases hp : decode o p v with
    | ok w => rw [hp] at hpre; simp [Except.isOk, Except.toBool] at hpre
    | error i => simp [decodeMembers_first_success o v rest m post r hpre.2 hm]

/-- C2: for a non-discriminated union, decode attempts the members strictly
in declaration order and returns the result of the first member that
succeeds; in particular, when several members structurally match the same
input, the first declared matching member's interpretation is returned. -/
theorem c2_union_first_declared_wins (pre : Members) (m : Schema) (post : Members)
    (o : ParseOptions) (v r : Value)
    (hnd : discriminated (pre.append (.cons m post)) = false)
    (hpre : pre.allFailOn o v = true)
    (hm : decode o m v = .ok r) :
    decode o (.union (pre.append (.cons m post))) v = .ok r := by
  have h := decodeMembers_first_success o v pre m post r hpre hm
  simp only [decode, h]

/-- Witness for C2: the documented `NumberFirst` union.  The raw number `42`
is returned by the first declared member (`Number`, untransformed), while
the string `"42"` falls past `Number` to `NumberFromString`. -/
theorem c2_union_first_declared_wins_witness :
    decode defaultOptions
        (.union (.cons Schema.Number (.cons Schema.NumberFromString .nil)))
        (.num (.fin 42)) = .ok (.num (.fin 42))
    ∧ decode defaultOptions
        (.union (.cons Schema.Number (.cons Schema.NumberFromString .nil)))
        (.str "42") = .ok (.num (.fin 42)) :=
  ⟨c2_union_first_declared_wins .nil Schema.Number (.cons Schema.NumberFromString .nil)
      defaultOptions (.num (.fin 42)) (.num (.fin 42)) (by decide) (by decide) (by decide),
    c2_union_first_declared_wins (.cons Schema.Number .nil) Schema.NumberFromString .nil
      defaultOptions (.str "42") (.num (.fin 42)) (by decide) (by decide) (by decide)⟩

/-- C5: a refinement's predicate is re-applied on encode — encoding a value
that fails the predicate fails with a Forbidden issue and never produces
Encoded output, while a value satisfying the predicate is not failed by the
refinement (the result is exactly the wrapped node's encoding). -/
theorem c5_refinement_checked_on_encode (inner : Schema) (p : FilterPred)
    (m : Option String) (o : ParseOptions) (v : Value) :
    (evalPred p v = false → encode o (.refine inner p m) v = .error (.forbidden [] v m))
    ∧ (evalPred p v = true → encode o (.refine inner p m) v = encode o inner v) := by
  constructor
  · intro h; simp [encode, h]
  · intro h; simp [encode, h]

/-- Witness for C5: the documented `PositiveNumber` filter — encoding `-5`
fails with a Forbidden issue, encoding `5` succeeds untouched. -/
theorem c5_refinement_checked_on_encode_witness :
    encode defaultOptions (Schema.positive Schema.Number) (.num (.fin (-5)))
        = .error (.forbidden [] (.num (.fin (-5))) none)
    ∧ encode defaultOptions (Schema.positive Schema.Number) (.num (.fin 5))
        = .ok (.num (.fin 5)) :=
  ⟨(c5_refinement_checked_on_encode Schema.Number .positive none defaultOptions
      (.num (.fin (-5)))).1 (by decide),
    ((c5_refinement_checked_on_encode Schema.Number .positive none defaultOptions
      (.num (.fin 5))).2 (by decide)).trans (by decide)⟩

/-- C6: decoding a string against `minLength(n)` fails exactly when the
string's length is strictly below `n`; the boundary `length = n` succeeds. -/
theorem c6_minLength_boundary (n : Nat) (s : String) (o : ParseOptions) :
    ((decode o (Schema.minLength n Schema.String) (.str s)).isOk = false ↔ s.length < n) := by
  simp only [Schema.minLength, Schema.String, decode, primCheck, if_true, evalPred]
  by_cases h : n ≤ s.length
  all_goals simp [h, Except.isOk, Except.toBool]
  all_goals omega

/-- Witness for C6: `minLength(3)` rejects a two-character string, accepts
the three-character boundary. -/
theorem c6_minLength_boundary_witness :
    (decode defaultOptions (Schema.minLength 3 Schema.String) (.str "ab")).isOk = false
    ∧ (decode defaultOptions (Schema.minLength 3 Schema.String) (.str "abc")).isOk = true :=
  ⟨(c6_minLength_boundary 3 "ab" defaultOptions).mpr (by decide), by decide⟩

/-- C7: decoding through the never-raising entry points is a total function
into an explicit success-or-failure result for every schema and input — the
`Either`-style result is always one of the two branches, the optional
variant is exactly its optional view, and only the "-or-raise" wrapper
turns the failure branch into a raised error (modelled as `none`). -/
theorem c7_never_raises (s : Schema) (o : ParseOptions) (v : Value) :
    ((∃ a, decodeUnknownEither s o v = .ok a) ∨ (∃ e, decodeUnknownEither s o v = .error e))
    ∧ decodeUnknownOption s o v = (decodeUnknownEither s o v).toOption
    ∧ (decodeUnknownSync s o v = none ↔ (decodeUnknownEither s o v).isOk = false) := by
  refine ⟨?_, rfl, ?_⟩
  · cases h : decodeUnknownEither s o v with
    | ok a => exact .inl ⟨a, rfl⟩
    | error e => exact .inr ⟨e, rfl⟩
  · cases h : decodeUnknownEither s o v <;>
      simp [decodeUnknownSync, h, Except.toOption, Except.isOk, Except.toBool]

/-- C8: decoding through the allows-missing-and-null optional container
(`OptionFromNullOr`): a present null decodes to the absent state, and a
present value accepted by the wrapped schema decodes to the present state
wrapping its decoded value. -/
theorem c8_optionFromNullOr (s : Schema) (o : ParseOptions) :
    ((decode o s .null).isOk = false →
      decode o (Schema.OptionFromNullOr s) .null = .ok noneValue)
    ∧ (∀ v r, decode o s v = .ok r → r ≠ .null →
      decode o (Schema.OptionFromNullOr s) v = .ok (someValue r)) := by
  constructor
  · intro h
    simp only [Schema.OptionFromNullOr, Schema.NullOr, decode, decodeMembers]
    cases hd : decode o s .null with
    | ok r => rw [hd] at h; simp [Except.isOk, Except.toBool] at h
    | error i => simp [decode]
  · intro v r hd hr
    simp only [Schema.OptionFromNullOr, Schema.NullOr, decode, decodeMembers, hd]
    simp [hr]

/-- Witness for C8: the documented `OptionFromNullOr(String)` examples —
null decodes to None, `"hello"` decodes to `Some("hello")`. -/
theorem c8_optionFromNullOr_witness :
    decode defaultOptions (Schema.OptionFromNullOr Schema.String) .null = .ok noneValue
    ∧ decode defaultOptions (Schema.OptionFromNullOr Schema.String) (.str "hello")
        = .ok (someValue (.str "hello")) :=
  ⟨(c8_optionFromNullOr Schema.String defaultOptions).1 (by decide),
    (c8_optionFromNullOr Schema.String defaultOptions).2 (.str "hello") (.str "hello")
      (by decide) (by decide)⟩

/-- C10: `NumberFromString` decodes every string the number parser accepts
— including the non-finite `"NaN"`, which succeeds and yields the NaN value
— and fails on any string the parser rejects (such as letters). -/
theorem c10_numberFromString (o : ParseOptions) :
    (∀ s n, parseJsNumber s = some n →
      decode o Schema.NumberFromString (.str s) = .ok (.num n))
    ∧ decode o Schema.NumberFromString (.str "NaN") = .ok (.num .nan)
    ∧ (∀ s, parseJsNumber s = none →
      (decode o Schema.NumberFromString (.str s)).isOk = false) := by
  refine ⟨?_, ?_, ?_⟩
  · intro s n h
    simp [Schema.NumberFromString, decode, primCheck, h]
  · have h : parseJsNumber "NaN" = some .nan := by decide
    simp [Schema.NumberFromString, decode, primCheck, h]
  · intro s h
    simp [Schema.NumberFromString, decode, primCheck, h, Except.isOk, Except.toBool]

/-- Witness for C10: `"3.14"` parses and decodes to the rational 157/50,
`"abc"` fails. -/
theorem c10_numberFromString_witness :
    decode defaultOptions Schema.NumberFromString (.str "3.14") = .ok (.num (.fin (mkRat 157 50)))
    ∧ (decode defaultOptions Schema.NumberFromString (.str "abc")).isOk = false :=
  ⟨(c10_numberFromString defaultOptions).1 "3.14" (.fin (mkRat 157 50)) (by decide),
    (c10_numberFromString defaultOptions).2.2 "abc" (by decide)⟩

/-- `errors: "all"` with excess keys ignored: the parse options of the
documented multi-error examples. -/
def allIgnore : ParseOptions := ⟨.all, .ignore⟩

theorem fieldIssueOf_head (o : ParseOptions) (fs : ObjFields) (k : String) (s : Schema)
    (i : Issue) (h : fieldIssueOf o fs k s = some i) :
    (topPath i).head? = some (.key k) := by
  unfold fieldIssueOf at h
  cases hl : fs.lookup k with
  | none =>
    simp only [hl] at h
    injection h with h
    rw [← h]; rfl
  | some v =>
    simp only [hl] at h
    cases hd : decode o s v with
    | ok r => simp [hd] at h
    | error j =>
      simp only [hd] at h
      injection h with h
      rw [← h, topPath_prependSeg]; rfl

/-- The struct field walk under `all` computes exactly the per-field issue
list and the per-field success list, both in declared field order. -/
theorem decodeFieldsAll_eq (o : ParseOptions) :
    (fl : Fields) → (fs : ObjFields) →
    decodeFieldsAll o fl fs = (fieldOks o fl fs, Issues.ofList (fieldIssuesL o fl fs))
  | .nil, _ => rfl
  | .cons k s rest, fs => by
    simp only [decodeFieldsAll, fieldOks, fieldIssuesL, fieldIssueOf,
      decodeFieldsAll_eq o rest fs]
    cases hl : fs.lookup k with
    | none => simp [hl, Issues.ofList]
    | some v =>
      cases hd : decode o s v with
      | ok r => simp [hl, hd]
      | error i => simp [hl, hd, Issues.ofList]

/-- The struct field walk under `first` stops at the head of the per-field
issue list, and succeeds with the per-field success list when it is empty. -/
theorem decodeFieldsFirst_eq (o : ParseOptions) :
    (fl : Fields) → (fs : ObjFields) →
    decodeFieldsFirst o fl fs =
      (match fieldIssuesL o fl fs with
        | [] => .ok (fieldOks o fl fs)
        | i :: _ => .error i)
  | .nil, _ => rfl
  | .cons k s rest, fs => by
    simp only [decodeFieldsFirst, fieldOks, fieldIssuesL, fieldIssueOf]
    cases hl : fs.lookup k with
    | none => simp [hl]
    | some v =>
      cases hd : decode o s v with
      | error i => simp [hl, hd]
      | ok r =>
        simp only [hl, hd, decodeFieldsFirst_eq o rest fs]
        cases h2 : fieldIssuesL o rest fs with
        | nil => simp [h2]
        | cons i rest2 => simp [h2]

/-- The per-field issues sit at sibling paths rooted at the failing keys,
in declared field order. -/
theorem fieldIssuesL_heads (o : ParseOptions) :
    (fl : Fields) → (fs : ObjFields) →
    (fieldIssuesL o fl fs).map (fun i => (topPath i).head?)
      = (failKeys o fl fs).map (fun k => some (.key k))
  | .nil, _ => rfl
  | .cons k s rest, fs => by
    simp only [fieldIssuesL, failKeys]
    cases h : fieldIssueOf o fs k s with
    | none => simpa [h, Bool.decide_eq_true] using fieldIssuesL_heads o rest fs
    | some i =>
      simp [h, fieldIssuesL_heads o rest fs, fieldIssueOf_head o fs k s i h]

/-- C3: decoding a struct whose fields fail independently surfaces, under
`errors:"all"`, one sibling issue per failing field inside a Composite, in
declared field order, each rooted at its field key; under `errors:"first"`
it surfaces exactly the first failing field's single issue. -/
theorem c3_struct_error_accumulation (fl : Fields) (fs : ObjFields)
    (hall : 2 ≤ (fieldIssuesL allIgnore fl fs).length)
    (i1 : Issue) (rest : List Issue)
    (hfirst : fieldIssuesL defaultOptions fl fs = i1 :: rest) :
    decode allIgnore (.struct fl) (.obj fs)
        = .error (.composite [] (Issues.ofList (fieldIssuesL allIgnore fl fs)))
    ∧ (fieldIssuesL allIgnore fl fs).map (fun i => (topPath i).head?)
        = (failKeys allIgnore fl fs).map (fun k => some (.key k))
    ∧ decode defaultOptions (.struct fl) (.obj fs) = .error i1
    ∧ (topPath i1).head? = ((failKeys defaultOptions fl fs).head?).map (fun k => .key k) := by
  refine ⟨?_, fieldIssuesL_heads allIgnore fl fs, ?_, ?_⟩
  · simp only [decode, allIgnore, decodeFieldsAll_eq]
    cases h : fieldIssuesL allIgnore fl fs with
    | nil => rw [h] at hall; simp at hall
    | cons a as =>
      rw [allIgnore] at h
      simp [h, Issues.ofList, Issues.append_nil]
  · simp only [decode, defaultOptions, decodeFieldsFirst_eq]
    rw [show (⟨.first, .ignore⟩ : ParseOptions) = defaultOptions from rfl, hfirst]
  · have hh := fieldIssuesL_heads defaultOptions fl fs
    rw [hfirst] at hh
    cases hk : failKeys defaultOptions fl fs with
    | nil => rw [hk] at hh; simp at hh
    | cons k ks =>
      rw [hk] at hh
      simp only [List.map_cons, List.cons.injEq] at hh
      simp [hh.1]

/-- The documented example struct: `{ name: string(minLength 1),
age: integer between 0 and 150 }`. -/
def exampleUserFields : Fields :=
  .cons "name" (Schema.minLength 1 Schema.String)
    (.cons "age" (Schema.between 0 150 (Schema.int Schema.Number)) .nil)

/-- The documented failing input `{name:"", age:-5}`. -/
def exampleBadFields : ObjFields :=
  .cons "name" (.str "") (.cons "age" (.num (.fin (-5))) .nil)

/-- Witness for C3: on `{name:"", age:-5}` the example struct yields, under
`errors:"all"`, a Composite of exactly two sibling issues at `["name"]` then
`["age"]`, and under `errors:"first"` the single issue at `["name"]`. -/
theorem c3_struct_error_accumulation_witness :
    decode allIgnore (.struct exampleUserFields) (.obj exampleBadFields)
        = .error (.composite []
            (Issues.ofList (fieldIssuesL allIgnore exampleUserFields exampleBadFields)))
    ∧ decode defaultOptions (.struct exampleUserFields) (.obj exampleBadFields)
        = .error (.forbidden [.key "name"] (.str "") none)
    ∧ issuePathsOf (decode allIgnore (.struct exampleUserFields) (.obj exampleBadFields))
        = [[.key "name"], [.key "age"]]
    ∧ (fieldIssuesL allIgnore exampleUserFields exampleBadFields).length = 2 := by
  have h := c3_struct_error_accumulation exampleUserFields exampleBadFields (by decide)
    (.forbidden [.key "name"] (.str "") none)
    [.forbidden [.key "age"] (.num (.fin (-5))) none] (by decide)
  exact ⟨h.1, h.2.2.1, by decide, by decide⟩

/-- A successful `first`-mode field walk resolves exactly the declared keys,
in declared order. -/
theorem decodeFieldsFirst_keys (o : ParseOptions) :
    (fl : Fields) → ∀ (fs : ObjFields) (oks : ObjFields),
    decodeFieldsFirst o fl fs = .ok oks → oks.keys = fl.keys
  | .nil, fs, oks, h => by
    simp only [decodeFieldsFirst] at h
    injection h with h; rw [← h]; rfl
  | .cons k s rest, fs, oks, h => by
    simp only [decodeFieldsFirst] at h
    cases hl : fs.lookup k with
    | none => simp [hl] at h
    | some v =>
      simp only [hl] at h
      cases hd : decode o s v with
      | error i => simp [hd] at h
      | ok r =>
        simp only [hd] at h
        cases hrest : decodeFieldsFirst o rest fs with
        | error i => simp [hrest] at h
        | ok oks2 =>
          simp only [hrest] at h
          injection h with h
          rw [← h]
          simp [ObjFields.keys, Fields.keys, decodeFieldsFirst_keys o rest fs oks2 hrest]

/-- C4: decoding a struct against an input carrying an undeclared key fails
under `onExcessProperty:"error"`; under `"ignore"` it succeeds (when the
declared fields decode) with exactly the declared keys in the result, so the
excess keys are absent; under `"preserve"` it succeeds with the excess
entries appended unchanged to the result. -/
theorem c4_excess_property_modes (fl : Fields) (fs : ObjFields)
    (hx : (excessOf fl fs).isEmpty = false) :
    (decode ⟨.first, .error⟩ (.struct fl) (.obj fs)).isOk = false
    ∧ (∀ oks, decodeFieldsFirst ⟨.first, .ignore⟩ fl fs = .ok oks →
        decode ⟨.first, .ignore⟩ (.struct fl) (.obj fs) = .ok (.obj oks)
        ∧ oks.keys = fl.keys)
    ∧ (∀ oks, decodeFieldsFirst ⟨.first, .preserve⟩ fl fs = .ok oks →
        decode ⟨.first, .preserve⟩ (.struct fl) (.obj fs)
          = .ok (.obj (oks.append (excessOf fl fs)))) := by
  refine ⟨?_, ?_, ?_⟩
  · simp only [decode]
    cases hf : decodeFieldsFirst ⟨.first, .error⟩ fl fs with
    | error i => simp [hf, Except.isOk, Except.toBool]
    | ok oks =>
      cases hex : excessOf fl fs with
      | nil => rw [hex] at hx; simp [ObjFields.isEmpty] at hx
      | cons k v rest => simp [hf, hex, Except.isOk, Except.toBool]
  · intro oks h
    refine ⟨?_, decodeFieldsFirst_keys _ fl fs oks h⟩
    simp [decode, h]
  · intro oks h
    simp [decode, h]

/-- A struct declaring only `a`. -/
def excessFields : Fields := .cons "a" (.prim .num) .nil

/-- An input with the declared `a` and an undeclared `extra`. -/
def excessInput : ObjFields :=
  .cons "a" (.num (.fin 1)) (.cons "extra" (.str "x") .nil)

/-- Witness for C4: `{a:1, extra:"x"}` against `struct{a:number}` fails
under `"error"`, drops `extra` under `"ignore"`, keeps it unchanged under
`"preserve"`. -/
theorem c4_excess_property_modes_witness :
    (decode ⟨.first, .error⟩ (.struct excessFields) (.obj excessInput)).isOk = false
    ∧ decode ⟨.first, .ignore⟩ (.struct excessFields) (.obj excessInput)
        = .ok (.obj (.cons "a" (.num (.fin 1)) .nil))
    ∧ decode ⟨.first, .preserve⟩ (.struct excessFields) (.obj excessInput)
        = .ok (.obj (.cons "a" (.num (.fin 1)) (.cons "extra" (.str "x") .nil))) := by
  have h := c4_excess_property_modes excessFields excessInput (by decide)
  refine ⟨h.1, ?_, ?_⟩
  · exact (h.2.1 (.cons "a" (.num (.fin 1)) .nil) (by decide)).1
  · exact (h.2.2 (.cons "a" (.num (.fin 1)) .nil) (by decide)).trans (by decide)

mutual
/-- Transform-free decoding is purely structural: it preserves whether the
value is an object, and returns every non-object input unchanged. -/
theorem decode_shape : (s : Schema) → selfEncoded s = true → ∀ v r,
    decode defaultOptions s v = .ok r → r.isObj = v.isObj ∧ (v.isObj = false → r = v)
  | .prim t, _, v, r, h => by
    simp only [decode] at h
    split at h
    · injection h with h; subst h; exact ⟨rfl, fun _ => rfl⟩
    · cases h
  | .lit l, _, v, r, h => by
    simp only [decode] at h
    split at h
    · injection h with h; subst h; exact ⟨rfl, fun _ => rfl⟩
    · cases h
  | .struct fl, hse, v, r, h => by
    cases v with
    | obj fs =>
      simp only [decode, defaultOptions] at h
      cases hf : decodeFieldsFirst ⟨.first, .ignore⟩ fl fs with
      | error i => simp [hf] at h
      | ok oks =>
        simp only [hf] at h
        injection h with h
        rw [← h]
        exact ⟨rfl, by intro hc; simp [Value.isObj] at hc⟩
    | null => simp [decode] at h
    | undef => simp [decode] at h
    | bool b => simp [decode] at h
    | num n => simp [decode] at h
    | str s => simp [decode] at h
  | .union ms, hse, v, r, h => by
    simp only [decode] at h
    cases hm : decodeMembers defaultOptions ms v with
    | error is => simp [hm] at h
    | ok w =>
      simp only [hm] at h
      injection h with h; subst h
      exact decodeMembers_shape ms (by simpa [selfEncoded] using hse) v _ hm
  | .refine s p m, hse, v, r, h => by
    simp only [selfEncoded] at hse
    simp only [decode] at h
    cases hd : decode defaultOptions s v with
    | error i => simp [hd] at h
    | ok w =>
      simp only [hd] at h
      split at h
      · injection h with h; subst h; exact decode_shape s hse v _ hd
      · cases h
  | .transform f t d e, hse, v, r, h => by simp [selfEncoded] at hse
  | .brand s tag, hse, v, r, h => by
    simp only [selfEncoded] at hse
    simp only [decode] at h
    exact decode_shape s hse v r h
theorem decodeMembers_shape : (ms : Members) → selfEncodedMembers ms = true → ∀ v r,
    decodeMembers defaultOptions ms v = .ok r → r.isObj = v.isObj ∧ (v.isObj = false → r = v)
  | .nil, _, v, r, h => by simp [decodeMembers] at h
  | .cons m rest, hse, v, r, h => by
    simp only [selfEncodedMembers, Bool.and_eq_true] at hse
    simp only [decodeMembers] at h
    cases hd : decode defaultOptions m v with
    | ok w =>
      simp only [hd] at h
      injection h with h; subst h
      exact decode_shape m hse.1 v _ hd
    | error i =>
      simp only [hd] at h
      cases hrest : decodeMembers defaultOptions rest v with
      | ok w =>
        simp only [hrest] at h
        injection h with h; subst h
        exact decodeMembers_shape rest hse.2 v _ hrest
      | error is => simp [hrest] at h
end

theorem defaultOptions_errors : defaultOptions.errors = .first := rfl

theorem defaultOptions_excess : defaultOptions.onExcessProperty = .ignore := rfl

mutual
/-- On a node whose Type and Encoded sides coincide, decode and encode
succeed on exactly the same inputs with exactly the same results (under the
default options). -/
theorem dec_enc : (s : Schema) → selfEncoded s = true → ∀ v r,
    (decode defaultOptions s v = .ok r ↔ encode defaultOptions s v = .ok r)
  | .prim t, _, v, r => by simp only [decode, encode]
  | .lit l, _, v, r => by simp only [decode, encode]
  | .struct fl, hse, v, r => by
    simp only [selfEncoded] at hse
    cases v with
    | obj fs =>
      simp only [decode, encode, defaultOptions_errors, defaultOptions_excess]
      constructor
      · intro h
        cases hf : decodeFieldsFirst defaultOptions fl fs with
        | error i => simp [hf] at h
        | ok oks =>
          simp only [hf] at h
          simp only [(dec_enc_fields fl hse fs oks).mp hf]
          exact h
      · intro h
        cases hf : encodeFieldsFirst defaultOptions fl fs with
        | error i => simp [hf] at h
        | ok oks =>
          simp only [hf] at h
          simp only [(dec_enc_fields fl hse fs oks).mpr hf]
          exact h
    | null => simp [decode, encode]
    | undef => simp [decode, encode]
    | bool b => simp [decode, encode]
    | num n => simp [decode, encode]
    | str t => simp [decode, encode]
  | .union ms, hse, v, r => by
    simp only [selfEncoded] at hse
    simp only [decode, encode]
    constructor
    · intro h
      cases hm : decodeMembers defaultOptions ms v with
      | error is => simp [hm] at h
      | ok w =>
        simp only [hm] at h
        simp only [(dec_enc_members ms hse v w).mp hm]
        exact h
    · intro h
      cases hm : encodeMembers defaultOptions ms v with
      | error is => simp [hm] at h
      | ok w =>
        simp only [hm] at h
        simp only [(dec_enc_members ms hse v w).mpr hm]
        exact h
  | .refine s p m, hse, v, r => by
    simp only [selfEncoded] at hse
    simp only [decode, encode]
    constructor
    · intro h
      cases hd : decode defaultOptions s v with
      | error i => simp [hd] at h
      | ok w =>
        simp only [hd] at h
        by_cases hp : evalPred p w = true
        · rw [if_pos hp] at h
          have hsh := decode_shape s hse v w hd
          have hpv : evalPred p v = true := by
            rw [← evalPred_congr p v w hsh.1 hsh.2]; exact hp
          rw [if_pos hpv]
          exact (dec_enc s hse v r).mp (by rw [hd]; exact h)
        · rw [if_neg hp] at h; cases h
    · intro h
      by_cases hpv : evalPred p v = true
      · rw [if_pos hpv] at h
        have hd := (dec_enc s hse v r).mpr h
        simp only [hd]
        have hsh := decode_shape s hse v r hd
        have hpr : evalPred p r = true := by
          rw [evalPred_congr p v r hsh.1 hsh.2]; exact hpv
        rw [if_pos hpr]
      · rw [if_neg hpv] at h; cases h
  | .transform f t d e, hse, v, r => by simp [selfEncoded] at hse
  | .brand s tag, hse, v, r => by
    simp only [selfEncoded] at hse
    simp only [decode, encode]
    exact dec_enc s hse v r
theorem dec_enc_fields : (fl : Fields) → selfEncodedFields fl = true → ∀ fs oks,
    (decodeFieldsFirst defaultOptions fl fs = .ok oks
      ↔ encodeFieldsFirst defaultOptions fl fs = .ok oks)
  | .nil, _, fs, oks => by simp [decodeFieldsFirst, encodeFieldsFirst]
  | .cons k s rest, hse, fs, oks => by
    simp only [selfEncodedFields, Bool.and_eq_true] at hse
    simp only [decodeFieldsFirst, encodeFieldsFirst]
    cases hl : fs.lookup k with
    | none => simp [hl]
    | some v =>
      simp only [hl]
      constructor
      · intro h
        cases hd : decode defaultOptions s v with
        | error i => simp [hd] at h
        | ok w =>
          simp only [hd] at h
          simp only [(dec_enc s hse.1 v w).mp hd]
          cases hrest : decodeFieldsFirst defaultOptions rest fs with
          | error i => simp [hrest] at h
          | ok oks2 =>
            simp only [hrest] at h
            simp only [(dec_enc_fields rest hse.2 fs oks2).mp hrest]
            exact h
      · intro h
        cases he : encode defaultOptions s v with
        | error i => simp [he] at h
        | ok w =>
          simp only [he] at h
          simp only [(dec_enc s hse.1 v w).mpr he]
          cases hrest : encodeFieldsFirst defaultOptions rest fs with
          | error i => simp [hrest] at h
          | ok oks2 =>
            simp only [hrest] at h
            simp only [(dec_enc_fields rest hse.2 fs oks2).mpr hrest]
            exact h
theorem dec_enc_members : (ms : Members) → selfEncodedMembers ms = true → ∀ v r,
    (decodeMembers defaultOptions ms v = .ok r ↔ encodeMembers defaultOptions ms v = .ok r)
  | .nil, _, v, r => by simp [decodeMembers, encodeMembers]
  | .cons m rest, hse, v, r => by
    simp only [selfEncodedMembers, Bool.and_eq_true] at hse
    simp only [decodeMembers, encodeMembers]
    constructor
    · intro h
      cases hd : decode defaultOptions m v with
      | ok w =>
        simp only [hd] at h
        simp only [(dec_enc m hse.1 v w).mp hd]
        exact h
      | error i =>
        simp only [hd] at h
        cases he : encode defaultOptions m v with
        | ok w => exact absurd ((dec_enc m hse.1 v w).mpr he) (by simp [hd])
        | error j =>
          simp only [he]
          cases hrest : decodeMembers defaultOptions rest v with
          | ok w =>
            simp only [hrest] at h
            simp only [(dec_enc_members rest hse.2 v w).mp hrest]
            exact h
          | error is => simp [hrest] at h
    · intro h
      cases he : encode defaultOptions m v with
      | ok w =>
        simp only [he] at h
        simp only [(dec_enc m hse.1 v w).mpr he]
        exact h
      | error i =>
        simp only [he] at h
        cases hd : decode defaultOptions m v with
        | ok w => exact absurd ((dec_enc m hse.1 v w).mp hd) (by simp [he])
        | error j =>
          simp only [hd]
          cases hrest : encodeMembers defaultOptions rest v with
          | ok w =>
            simp only [hrest] at h
            simp only [(dec_enc_members rest hse.2 v w).mpr hrest]
            exact h
          | error is => simp [hrest] at h
end

/-- C1: on a node whose Type and Encoded representations coincide (no
transform anywhere; refinements and brands never change the carrier),
encode is the identity on every already-valid value — a value that decode
accepts unchanged, decode being purely structural on such nodes — and both
round trips `decode(encode(x)) = x` and `encode(decode(y)) = y` close on
such values. -/
theorem c1_coincide_roundtrip (s : Schema) (hs : selfEncoded s = true) (y : Value)
    (hy : decode defaultOptions s y = .ok y) :
    encode defaultOptions s y = .ok y
    ∧ (decode defaultOptions s y).bind (encode defaultOptions s) = .ok y
    ∧ (encode defaultOptions s y).bind (decode defaultOptions s) = .ok y := by
  have he := (dec_enc s hs y y).mp hy
  refine ⟨he, ?_, ?_⟩
  · rw [hy]; simpa [Except.bind] using he
  · rw [he]; simpa [Except.bind] using hy

/-- Witness for C1: a refined struct (no transform) accepts
`{name:"Alice"}` unchanged, and encode and both round trips are the
identity on it. -/
theorem c1_coincide_roundtrip_witness :
    selfEncoded (.struct (.cons "name" (Schema.minLength 1 Schema.String) .nil)) = true
    ∧ encode defaultOptions (.struct (.cons "name" (Schema.minLength 1 Schema.String) .nil))
        (.obj (.cons "name" (.str "Alice") .nil)) = .ok (.obj (.cons "name" (.str "Alice") .nil))
    ∧ (decode defaultOptions (.struct (.cons "name" (Schema.minLength 1 Schema.String) .nil))
        (.obj (.cons "name" (.str "Alice") .nil))).bind
        (encode defaultOptions (.struct (.cons "name" (Schema.minLength 1 Schema.String) .nil)))
        = .ok (.obj (.cons "name" (.str "Alice") .nil)) := by
  have h := c1_coincide_roundtrip
    (.struct (.cons "name" (Schema.minLength 1 Schema.String) .nil)) (by decide)
    (.obj (.cons "name" (.str "Alice") .nil)) (by decide)
  exact ⟨by decide, h.1, h.2.1⟩

theorem typeViewFields_hasKey : (fl : Fields) → ∀ k, (typeViewFields fl).hasKey k = fl.hasKey k
  | .nil, k => rfl
  | .cons k2 s rest, k => by
    simp [typeViewFields, Fields.hasKey, typeViewFields_hasKey rest k]

theorem excessOf_typeView (fl : Fields) : (fs : ObjFields) →
    excessOf (typeViewFields fl) fs = excessOf fl fs
  | .nil => rfl
  | .cons k v rest => by
    simp [excessOf, typeViewFields_hasKey fl k, excessOf_typeView fl rest]

mutual
/-- The validator's traversal is exactly decode against the Type-only view
of the node. -/
theorem validate_eq : (s : Schema) → ∀ (o : ParseOptions) (v : Value),
    validate o s v = decode o (typeView s) v
  | .prim t, o, v => rfl
  | .lit l, o, v => rfl
  | .struct fl, o, v => by
    cases v with
    | obj fs =>
      simp only [validate, typeView, decode, validateFieldsFirst_eq fl,
        validateFieldsAll_eq fl, excessOf_typeView]
    | null => rfl
    | undef => rfl
    | bool b => rfl
    | num n => rfl
    | str t => rfl
  | .union ms, o, v => by
    simp only [validate, typeView, decode, validateMembers_eq ms]
  | .refine s p m, o, v => by
    simp only [validate, typeView, decode, validate_eq s]
  | .transform f t d e, o, v => by
    simp only [validate, typeView]
    exact validate_eq t o v
  | .brand s tag, o, v => by
    simp only [validate, typeView, decode]
    exact validate_eq s o v
theorem validateFieldsFirst_eq : (fl : Fields) → ∀ o fs,
    validateFieldsFirst o fl fs = decodeFieldsFirst o (typeViewFields fl) fs
  | .nil, o, fs => rfl
  | .cons k s rest, o, fs => by
    simp only [validateFieldsFirst, typeViewFields, decodeFieldsFirst,
      validate_eq s, validateFieldsFirst_eq rest]
theorem validateFieldsAll_eq : (fl : Fields) → ∀ o fs,
    validateFieldsAll o fl fs = decodeFieldsAll o (typeViewFields fl) fs
  | .nil, o, fs => rfl
  | .cons k s rest, o, fs => by
    simp only [validateFieldsAll, typeViewFields, decodeFieldsAll,
      validate_eq s, validateFieldsAll_eq rest]
theorem validateMembers_eq : (ms : Members) → ∀ o v,
    validateMembers o ms v = decodeMembers o (typeViewMembers ms) v
  | .nil, o, v => rfl
  | .cons m rest, o, v => by
    simp only [validateMembers, typeViewMembers, decodeMembers,
      validate_eq m, validateMembers_eq rest]
end

mutual
/-- The Type-only view contains no transform node, so no transform function
can ever run during validation. -/
theorem selfEncoded_typeView : (s : Schema) → selfEncoded (typeView s) = true
  | .prim t => rfl
  | .lit l => rfl
  | .struct fl => by
    simp only [typeView, selfEncoded]
    exact selfEncodedFields_typeView fl
  | .union ms => by
    simp only [typeView, selfEncoded]
    exact selfEncodedMembers_typeView ms
  | .refine s p m => by
    simp only [typeView, selfEncoded]
    exact selfEncoded_typeView s
  | .transform f t d e => by
    simp only [typeView]
    exact selfEncoded_typeView t
  | .brand s tag => by
    simp only [typeView, selfEncoded]
    exact selfEncoded_typeView s
theorem selfEncodedFields_typeView : (fl : Fields) → selfEncodedFields (typeViewFields fl) = true
  | .nil => rfl
  | .cons k s rest => by
    simp only [typeViewFields, selfEncodedFields, Bool.and_eq_true]
    exact ⟨selfEncoded_typeView s, selfEncodedFields_typeView rest⟩
theorem selfEncodedMembers_typeView : (ms : Members) →
    selfEncodedMembers (typeViewMembers ms) = true
  | .nil => rfl
  | .cons m rest => by
    simp only [typeViewMembers, selfEncodedMembers, Bool.and_eq_true]
    exact ⟨selfEncoded_typeView m, selfEncodedMembers_typeView rest⟩
end

/-- C9: the validator is decode restricted to the Type-only view of the
node — its traversal equals decoding against the view (which replaces each
transform by its "to" side and keeps refinement predicates), the view is
transform-free so no transform function is ever applied, and the boolean
verdict is success of decode-against-the-view. -/
theorem c9_validator_typeView (s : Schema) (o : ParseOptions) (v : Value) :
    validate o s v = decode o (typeView s) v
    ∧ selfEncoded (typeView s) = true
    ∧ isValid s v = (decode defaultOptions (typeView s) v).isOk :=
  ⟨validate_eq s o v, selfEncoded_typeView s, by simp only [isValid, validate_eq s]⟩
